import Mathlib

/-!
Verification of the lds directory-tree listing tool (src/lds.go).

The Go program is shallow-embedded: file metadata becomes the structure
FileInfo, the operating-system calls become the record FS of partial
functions, the in-place Lomuto quicksort becomes an Option-valued function
on arrays (where none models the Go index-out-of-range panic), and the
recursive tree printer becomes a fuel-indexed function (where none models
non-termination of the model before the fuel runs out).  Standard output is
modelled as the list of printed lines and standard error as the list of
logged warnings.  The ANSI colour styling added by lipgloss carries no
information about the text itself and is modelled as the identity on
strings.
-/

namespace Lds

/-- Metadata of one directory entry, as produced by os.Lstat, os.Stat or
File.Readdir.  The field isSymlink models mode and os.ModeSymlink being
nonzero, permStr models Mode().String(), and modTimeStr models the
already-formatted modification time. -/
structure FileInfo where
  name : String
  isDir : Bool
  isSymlink : Bool
  permStr : String
  size : Int
  modTimeStr : String
deriving DecidableEq, Inhabited

/-- The Options record of src/lds.go lines 39-46. -/
structure Options where
  showHidden : Bool
  longFormat : Bool
  reverse : Bool
  derefLinks : Bool
  noSymlink : Bool
  maxDepth : Int
deriving DecidableEq, Inhabited

/-- Errors returned by the modelled filesystem calls.  Go error values carry
messages; only their origin matters here. -/
inductive FsErr
  | lstatFailed (path : String)
  | readFailed (path : String)
deriving DecidableEq, Inhabited

/-- Warnings logged to standard error by logger.Warnf: either a failed root
listing (src/lds.go line 107) or a failed subdirectory read (line 173). -/
inductive Warn
  | listingRoot (root : String) (e : FsErr)
  | readSubdir (path : String) (e : FsErr)
deriving DecidableEq

/-- The filesystem, as the partial operating-system calls the program makes.
Each call either succeeds with a value or fails (none). -/
structure FS where
  lstat : String → Option FileInfo
  readdirRaw : String → Option (List FileInfo)
  evalSymlinks : String → Option String
  stat : String → Option FileInfo
  readlink : String → Option String

/-- Reading entries at an Int index with the Go runtime bounds check:
none models the index-out-of-range panic. -/
def getI (a : Array α) (i : Int) : Option α :=
  if h : 0 ≤ i ∧ i.toNat < a.size then some (a.get ⟨i.toNat, h.2⟩) else none

/-- The parallel assignment entries i and entries j swapped, with the Go
runtime bounds checks (src/lds.go line 268 and line 272). -/
def swapI (a : Array α) (i j : Int) : Option (Array α) :=
  if h : (0 ≤ i ∧ i.toNat < a.size) ∧ (0 ≤ j ∧ j.toNat < a.size) then
    some (a.swap ⟨i.toNat, h.1.2⟩ ⟨j.toNat, h.2.2⟩)
  else none

/-- The loop of partition (src/lds.go lines 265-271) followed by the final
swap and return (lines 272-273), with loop state a, i, j.  The comparator
less reads the current elements at the two indices, so it is modelled by
applying lt to those elements. -/
def partitionLoop (lt : α → α → Bool) (high : Int) (a : Array α) (i j : Int) :
    Option (Array α × Int) :=
  if h : j < high then
    match getI a j, getI a high with
    | some x, some pv =>
      if lt x pv then
        match swapI a i j with
        | some a1 => partitionLoop lt high a1 (i + 1) (j + 1)
        | none => none
      else partitionLoop lt high a i (j + 1)
    | _, _ => none
  else
    (swapI a i high).map (fun a1 => (a1, i))
termination_by (high - j).toNat
decreasing_by all_goals omega

/-- The function partition of src/lds.go lines 264-274. -/
def goPartition (a : Array α) (low high : Int) (lt : α → α → Bool) :
    Option (Array α × Int) :=
  partitionLoop lt high a low low

/-- Bound on the index returned by partitionLoop, needed to justify the
recursion of goQuickSort below, hence stated as a definition before it. -/
def partitionLoop_le (lt : α → α → Bool) (high : Int) :
    ∀ (n : Nat) (a : Array α) (i j : Int) (a2 : Array α) (r : Int),
      (high - j).toNat ≤ n → i ≤ j →
      partitionLoop lt high a i j = some (a2, r) → i ≤ r ∧ r ≤ max j high := by
  intro n
  induction n with
  | zero =>
    intro a i j a2 r hn hij h
    rw [partitionLoop] at h
    have hjh : ¬ j < high := by omega
    rw [dif_neg hjh] at h
    match hs : swapI a i high with
    | some a1 => rw [hs] at h; simp [Option.map] at h; omega
    | none => rw [hs] at h; simp [Option.map] at h
  | succ n ih =>
    intro a i j a2 r hn hij h
    rw [partitionLoop] at h
    by_cases hjh : j < high
    · rw [dif_pos hjh] at h
      match hx : getI a j, hpv : getI a high with
      | some x, some pv =>
        rw [hx, hpv] at h
        simp only at h
        by_cases hlt : lt x pv
        · rw [if_pos hlt] at h
          match hs : swapI a i j with
          | some a1 =>
            rw [hs] at h
            have := ih a1 (i + 1) (j + 1) a2 r (by omega) (by omega) h
            omega
          | none => rw [hs] at h; exact absurd h (by simp)
        · rw [if_neg hlt] at h
          have := ih a i (j + 1) a2 r (by omega) (by omega) h
          omega
      | some _, none => rw [hx, hpv] at h; exact absurd h (by simp)
      | none, _ => rw [hx] at h; exact absurd h (by simp)
    · rw [dif_neg hjh] at h
      match hs : swapI a i high with
      | some a1 => rw [hs] at h; simp [Option.map] at h; omega
      | none => rw [hs] at h; simp [Option.map] at h

/-- The function quickSort of src/lds.go lines 256-262. -/
def goQuickSort (a : Array α) (low high : Int) (lt : α → α → Bool) :
    Option (Array α) :=
  if h : low < high then
    match hp : goPartition a low high lt with
    | some (a1, p) =>
      match goQuickSort a1 low (p - 1) lt with
      | some a2 => goQuickSort a2 (p + 1) high lt
      | none => none
    | none => none
  else some a
termination_by (high - low).toNat
decreasing_by
  · have hb := partitionLoop_le lt high (high - low).toNat a low low a1 p
      (by omega) (by omega) hp
    omega
  · have hb := partitionLoop_le lt high (high - low).toNat a low low a1 p
      (by omega) (by omega) hp
    omega

/-- The element of a at index k, with a default for out-of-range indices;
used only to state properties of the sort. -/
def ag [Inhabited α] (a : Array α) (k : Nat) : α :=
  a.getD k default

/-- Transitivity of a boolean comparator. -/
def TransB (lt : α → α → Bool) : Prop :=
  ∀ x y z, lt x y = true → lt y z = true → lt x z = true

/-- Asymmetry of a boolean comparator. -/
def AsymB (lt : α → α → Bool) : Prop :=
  ∀ x y, lt x y = true → lt y x = false

/-- Sortedness of the index range from low to high of a with respect to the
strict comparator lt: no later element is strictly below an earlier one. -/
def sortedRange [Inhabited α] (lt : α → α → Bool) (a : Array α)
    (low high : Int) : Prop :=
  ∀ p q : Nat, low ≤ (p : Int) → p < q → (q : Int) ≤ high →
    lt (ag a q) (ag a p) = false

/-- Go strings.ToLower, modelled as the character-wise lowering map (Go
lowers rune by rune; Char.toLower covers the ASCII letters). -/
def lowerName (s : String) : String :=
  String.mk (s.data.map Char.toLower)

/-- The less closure of readDir (src/lds.go lines 244-249): case-insensitive
name comparison, flipped when reverse is set.  Go byte-wise string
comparison is modelled by the String order. -/
def ldsLess (rev : Bool) (a b : FileInfo) : Bool :=
  if rev then decide (lowerName b.name < lowerName a.name)
  else decide (lowerName a.name < lowerName b.name)

/-- The filtering loop of readDir (src/lds.go lines 236-242): an entry is
kept unless hidden files are off and its name starts with a dot. -/
def hiddenFilter (showHidden : Bool) (entries : List FileInfo) :
    List FileInfo :=
  entries.filter (fun e => showHidden || !(e.name.startsWith "."))

/-- The call quickSort(filtered, 0, len(filtered)-1, less) of src/lds.go
line 251, as a function from the entry list to the sorted entry list. -/
def sortEntries (l : List FileInfo) (rev : Bool) : Option (List FileInfo) :=
  (goQuickSort (Array.mk l) 0 ((l.length : Int) - 1) (ldsLess rev)).map
    Array.toList

/-- The pure part of readDir (src/lds.go lines 236-253): filter, then the
in-place quicksort.  The value none models an index-out-of-range panic
inside the sort (shown unreachable in the totality theorem). -/
def readDirSorted (entries : List FileInfo) (showHidden rev : Bool) :
    Option (List FileInfo) :=
  sortEntries (hiddenFilter showHidden entries) rev

/-- The function readDir of src/lds.go lines 224-254.  Failure of os.Open
or Readdir becomes the Except error; the outer Option is the panic layer
of the sort. -/
def readDirGo (fs : FS) (path : String) (showHidden rev : Bool) :
    Option (Except FsErr (List FileInfo)) :=
  match fs.readdirRaw path with
  | none => some (.error (.readFailed path))
  | some raw => (readDirSorted raw showHidden rev).map .ok

/-- The glyph constants of src/lds.go lines 32-37. -/
def branch : String := "╰─ "

/-- Continuation glyph printed under a non-last directory child. -/
def pipe : String := "│  "

/-- Glyph of a non-last child. -/
def tee : String := "├─ "

/-- Continuation blank printed under a last directory child. -/
def space : String := "   "

/-- Go fmt.Sprintf with the format %9d: the decimal form of n padded on the
left with blanks to at least nine characters. -/
def fmtSize (n : Int) : String :=
  let s := toString n
  if s.length < 9 then String.mk (List.replicate (9 - s.length) ' ') ++ s
  else s

/-- Go filepath.Join for the paths the program builds.  The lexical
cleaning Join also performs does not matter here because the filesystem is
an abstract map on path strings. -/
def joinPath (dir name : String) : String :=
  if dir = "" then name else dir ++ "/" ++ name

/-- Modelled from Go filepath.Base: the last non-empty slash-separated
component; all slashes gives the root and the empty path gives a dot. -/
def baseName (p : String) : String :=
  let comps := (p.splitOn "/").filter (fun c => c ≠ "")
  match comps.getLast? with
  | some s => s
  | none => if p = "" then "." else "/"

/-- The root display name of src/lds.go lines 124-127. -/
def rootDisplayName (path : String) : String :=
  let name := baseName path
  if name = "." then path else name

/-- The function printNode of src/lds.go lines 181-222, returning the
printed line.  The lipgloss style Render calls wrap the name in colour
escapes chosen by entry kind (directory, hidden, symlink, file) and are
modelled as the identity on the text. -/
def printNode (name : String) (info : FileInfo) (opts : Options)
    (pre : String) (isRoot : Bool) ( printName : Bool) (linkTarget : String)
    (isSymlink : Bool) : String :=
  let displayName :=
    if isSymlink && linkTarget ≠ "" && !opts.noSymlink && !opts.derefLinks
    then name ++ " -> " ++ linkTarget
    else name
  let styledName := displayName
  if isRoot then styledName
  else if opts.longFormat then
    pre ++ styledName ++ " " ++ info.permStr ++ " " ++ fmtSize info.size
      ++ " " ++ info.modTimeStr
  else pre ++ styledName

/-- The symlink-resolution block of the entry loop (src/lds.go lines
135-153): the effective entry metadata, entry path, symlink flag and
display link target after the dereference or readlink step. -/
def resolveEntry (fs : FS) (opts : Options) (entry0 : FileInfo)
    (entryPath0 : String) : FileInfo × String × Bool × String :=
  if entry0.isSymlink && opts.derefLinks then
    match fs.evalSymlinks entryPath0 with
    | some targetPath =>
      match fs.stat targetPath with
      | some targetInfo => (targetInfo, targetPath, false, "")
      | none => (entry0, entryPath0, entry0.isSymlink, "")
    | none => (entry0, entryPath0, entry0.isSymlink, "")
  else if entry0.isSymlink && !opts.noSymlink then
    match fs.readlink entryPath0 with
    | some t => (entry0, entryPath0, entry0.isSymlink, t)
    | none => (entry0, entryPath0, entry0.isSymlink, "")
  else (entry0, entryPath0, entry0.isSymlink, "")

/-- The body of the entry loop of printTree (src/lds.go lines 131-176) for
one entry: symlink resolution, the node line, and the conditional recursion
into a directory, where recur stands for the recursive printTree call.
The result pairs the printed lines with the logged warnings. -/
def processEntry (fs : FS) (opts : Options)
    (recur : String → String → Option (Except FsErr (List String × List Warn)))
    (path pre : String) (entry0 : FileInfo) (isLast : Bool) :
    Option (List String × List Warn) :=
  match resolveEntry fs opts entry0 (joinPath path entry0.name) with
  | (entry, entryPath, isLink, linkTarget) =>
    let linePre := pre ++ (if isLast then branch else tee)
    let nodeLine := printNode entry.name entry opts linePre false true
      linkTarget isLink
    if entry.isDir then
      let newPre := pre ++ (if isLast then space else pipe)
      match recur entryPath newPre with
      | none => none
      | some (.error e) => some ([nodeLine], [Warn.readSubdir entryPath e])
      | some (.ok (ls, ws)) => some (nodeLine :: ls, ws)
    else some ([nodeLine], [])

/-- The entry loop of printTree (src/lds.go lines 131-176).  The index
comparison i == len(entries)-1 holds exactly when the tail is empty. -/
def processEntries (fs : FS) (opts : Options)
    (recur : String → String → Option (Except FsErr (List String × List Warn)))
    (path pre : String) : List FileInfo → Option (List String × List Warn)
  | [] => some ([], [])
  | e :: rest =>
    match processEntry fs opts recur path pre e rest.isEmpty with
    | none => none
    | some (ls, ws) =>
      match processEntries fs opts recur path pre rest with
      | none => none
      | some (ls2, ws2) => some (ls ++ ls2, ws ++ ws2)

/-- The function printTree of src/lds.go lines 112-179, indexed by fuel:
none means the model ran out of fuel (or the sort panicked), an error value
is the error printTree returns to its caller, and a success carries the
printed lines and the logged warnings. -/
def printTree (fs : FS) (opts : Options) :
    Nat → String → String → Bool →
    Option (Except FsErr (List String × List Warn))
  | 0, _, _, _ => none
  | fuel + 1, path, pre, isRoot =>
    match fs.lstat path with
    | none => some (.error (.lstatFailed path))
    | some info =>
      match readDirGo fs path opts.showHidden opts.reverse with
      | none => none
      | some (.error e) => some (.error e)
      | some (.ok entries) =>
        let rootLines :=
          if isRoot then
            [printNode (rootDisplayName path) info opts "" true true "" false]
          else []
        match processEntries fs opts
            (fun p q => printTree fs opts fuel p q false) path pre entries with
        | none => none
        | some (ls, ws) => some (.ok (rootLines ++ ls, ws))

/-- The root loop of main (src/lds.go lines 98-109), over the list of
remaining roots, where total is the number of roots given and i the index
of the first remaining one. -/
def runRoots (fs : FS) (opts : Options) (fuel : Nat) (total : Nat) :
    Nat → List String → Option (List String × List Warn)
  | _, [] => some ([], [])
  | i, root :: rest =>
    let headers : List String :=
      if 1 < total then (if 0 < i then [""] else []) ++ [root ++ ":"] else []
    match printTree fs opts fuel root "" true with
    | none => none
    | some (.error e) =>
      match runRoots fs opts fuel total (i + 1) rest with
      | none => none
      | some (ls, ws) => some (headers ++ ls, Warn.listingRoot root e :: ws)
    | some (.ok (ls0, ws0)) =>
      match runRoots fs opts fuel total (i + 1) rest with
      | none => none
      | some (ls, ws) => some (headers ++ ls0 ++ ls, ws0 ++ ws)

/-- The path-processing part of main (src/lds.go lines 94-109): default to
the current directory when no path was given, then list each root. -/
def runMain (fs : FS) (opts : Options) (fuel : Nat) (paths : List String) :
    Option (List String × List Warn) :=
  let roots := if paths.isEmpty then ["."] else paths
  runRoots fs opts fuel roots.length 0 roots

/-! Concrete fixtures used to witness the theorems below at specific
inputs: a tiny filesystem with a root directory, a plain file, a
subdirectory and a symlink. -/

/-- Sample plain file entry. -/
def fileW : FileInfo := ⟨"a.txt", false, false, "-rw-r--r--", 5, "2024-01-02 03:04"⟩

/-- Sample subdirectory entry. -/
def dirW : FileInfo := ⟨"sub", true, false, "drwxr-xr-x", 4096, "2024-01-02 03:04"⟩

/-- Sample symlink entry. -/
def linkW : FileInfo := ⟨"ln", false, true, "Lrwxrwxrwx", 3, "2024-01-02 03:04"⟩

/-- Metadata of the directory the sample symlink resolves to. -/
def targetW : FileInfo := ⟨"real", true, false, "drwxr-xr-x", 4096, "2024-01-02 03:04"⟩

/-- Sample filesystem: the root directory d holds a.txt, sub and the
symlink ln pointing at the directory real; sub and real are empty. -/
def fsW : FS where
  lstat := fun p =>
    if p = "d" then some ⟨"d", true, false, "drwxr-xr-x", 4096, "2024-01-02 03:04"⟩
    else if p = "d/sub" then some dirW
    else if p = "real" then some targetW
    else none
  readdirRaw := fun p =>
    if p = "d" then some [fileW, dirW, linkW]
    else if p = "d/sub" then some []
    else if p = "real" then some []
    else none
  evalSymlinks := fun p => if p = "d/ln" then some "real" else none
  stat := fun p => if p = "real" then some targetW else none
  readlink := fun p => if p = "d/ln" then some "real" else none

/-- All-default options, as the program starts with (src/lds.go line 49). -/
def optsW : Options := ⟨false, false, false, false, false, 0⟩

/-- Options with dereference-links enabled, as set by the L flag. -/
def optsLW : Options := ⟨false, false, false, true, false, 0⟩

/-- Entry named with an upper-case letter, for the sorting counterexample. -/
def entAW : FileInfo := ⟨"A", false, false, "-rw-r--r--", 1, "2024-01-02 03:04"⟩

/-- Entry named with a lower-case letter, for the sorting counterexample. -/
def entaW : FileInfo := ⟨"a", false, false, "-rw-r--r--", 1, "2024-01-02 03:04"⟩

/-! Bridging lemmas between the bounds-checked operations of the embedding
and the statement-level element function ag. -/

theorem ag_eq_get [Inhabited α] (a : Array α) (k : Nat) (hk : k < a.size) :
    ag a k = a.get ⟨k, hk⟩ := by
  simp [ag, Array.getD, hk, Array.get_eq_getElem]

theorem getI_eq_some [Inhabited α] (a : Array α) (i : Int) (h0 : 0 ≤ i)
    (hs : i.toNat < a.size) : getI a i = some (ag a i.toNat) := by
  rw [getI, dif_pos ⟨h0, hs⟩, ag_eq_get a i.toNat hs]

theorem swapI_eq_some (a : Array α) (i j : Int) (h0 : 0 ≤ i)
    (hi : i.toNat < a.size) (h1 : 0 ≤ j) (hj : j.toNat < a.size) :
    swapI a i j = some (a.swap ⟨i.toNat, hi⟩ ⟨j.toNat, hj⟩) := by
  rw [swapI, dif_pos ⟨⟨h0, hi⟩, ⟨h1, hj⟩⟩]

theorem ag_swap [Inhabited α] (a : Array α) (i j : Fin a.size) (k : Nat) :
    ag (a.swap i j) k =
      if k = i.1 then ag a j.1 else if k = j.1 then ag a i.1 else ag a k := by
  have hgi : ag a i.1 = a[i] := by rw [ag_eq_get a i.1 i.2]; rfl
  have hgj : ag a j.1 = a[j] := by rw [ag_eq_get a j.1 j.2]; rfl
  by_cases hk : k < a.size
  · have hk2 : k < (a.swap i j).size := by simp [Array.size_swap, hk]
    have hgk : ag a k = a[k] := by rw [ag_eq_get a k hk]; rfl
    rw [ag_eq_get _ _ hk2,
      show (a.swap i j).get ⟨k, hk2⟩ = (a.swap i j)[k] from rfl,
      Array.getElem_swap' a i j k hk, hgi, hgj, hgk]
  · have h1 : k ≠ i.1 := fun h => hk (h ▸ i.2)
    have h2 : k ≠ j.1 := fun h => hk (h ▸ j.2)
    have hk2 : ¬ k < (a.swap i j).size := by simp [Array.size_swap, hk]
    simp [h1, h2, ag, Array.getD, hk, hk2]

theorem getElem_cons_set_perm (t : List α) :
    ∀ (m : Nat) (hm : m < t.length) (x : α),
      List.Perm (t[m] :: t.set m x) (x :: t) := by
  induction t with
  | nil => intro m hm; simp at hm
  | cons y s ih =>
    intro m hm x
    match m with
    | 0 => simpa using List.Perm.swap x y s
    | m + 1 =>
      have hm2 : m < s.length := by simpa using hm
      have h1 : List.Perm (s[m] :: y :: s.set m x) (y :: s[m] :: s.set m x) :=
        List.Perm.swap y (s[m]) (s.set m x)
      have h2 : List.Perm (y :: s[m] :: s.set m x) (y :: x :: s) :=
        (ih m hm2 x).cons y
      have h3 : List.Perm (y :: x :: s) (x :: y :: s) := List.Perm.swap x y s
      simpa using (h1.trans h2).trans h3

theorem set_set_swap_perm (l : List α) :
    ∀ (i j : Nat) (hi : i < l.length) (hj : j < l.length),
      List.Perm ((l.set i l[j]).set j l[i]) l := by
  induction l with
  | nil => intro i j hi; simp at hi
  | cons x t ih =>
    intro i j hi hj
    match i, j with
    | 0, 0 =>
      simp only [List.getElem_cons_zero, List.set_cons_zero]
      exact List.Perm.refl _
    | 0, m + 1 =>
      have hm : m < t.length := by simpa using hj
      simp only [List.getElem_cons_succ, List.getElem_cons_zero,
        List.set_cons_zero, List.set_cons_succ]
      exact getElem_cons_set_perm t m hm x
    | n + 1, 0 =>
      have hn : n < t.length := by simpa using hi
      simp only [List.getElem_cons_succ, List.getElem_cons_zero,
        List.set_cons_zero, List.set_cons_succ]
      exact getElem_cons_set_perm t n hn x
    | n + 1, m + 1 =>
      have hn : n < t.length := by simpa using hi
      have hm : m < t.length := by simpa using hj
      simp only [List.getElem_cons_succ, List.set_cons_succ]
      exact (ih n m hn hm).cons x

theorem swap_toList_perm (a : Array α) (i j : Fin a.size) :
    List.Perm (a.swap i j).toList a.toList := by
  rw [Array.toList_swap]
  have hi : i.1 < a.toList.length := by simpa using i.2
  have hj : j.1 < a.toList.length := by simpa using j.2
  have hgi : a.get i = a.toList[i.1] := rfl
  have hgj : a.get j = a.toList[j.1] := rfl
  rw [hgi, hgj]
  exact set_set_swap_perm a.toList i.1 j.1 hi hj

/-! Correctness of the Lomuto partition loop.  The invariant: positions
from lo up to i hold elements strictly below the pivot, positions from i up
to j hold elements not strictly below the pivot, and the pivot value sits
untouched at index high. -/

theorem partitionLoop_exit_spec [Inhabited α] (lt : α → α → Bool)
    (high : Int) (a : Array α) (i : Int) (lo : Nat)
    (h0i : 0 ≤ i) (hih : i ≤ high) (hhs : high < (a.size : Int))
    (hloi : (lo : Int) ≤ i)
    (hL : ∀ k : Nat, lo ≤ k → (k : Int) < i →
      lt (ag a k) (ag a high.toNat) = true)
    (hM : ∀ k : Nat, i ≤ (k : Int) → (k : Int) < high →
      lt (ag a k) (ag a high.toNat) = false) :
    ∃ a2 r, partitionLoop lt high a i high = some (a2, r) ∧
      i ≤ r ∧ r ≤ high ∧ a2.size = a.size ∧
      List.Perm a2.toList a.toList ∧
      (∀ k : Nat, k < lo → ag a2 k = ag a k) ∧
      (∀ k : Nat, high < (k : Int) → ag a2 k = ag a k) ∧
      (∀ k : Nat, lo ≤ k → (k : Int) < r →
        lt (ag a2 k) (ag a2 r.toNat) = true) ∧
      (∀ k : Nat, r < (k : Int) → (k : Int) ≤ high →
        lt (ag a2 k) (ag a2 r.toNat) = false) ∧
      ag a2 r.toNat = ag a high.toNat := by
  have hi : i.toNat < a.size := by omega
  have hh : high.toNat < a.size := by omega
  have h0h : 0 ≤ high := by omega
  set aswap := a.swap ⟨i.toNat, hi⟩ ⟨high.toNat, hh⟩ with haswap
  have hsome : partitionLoop lt high a i high = some (aswap, i) := by
    rw [partitionLoop, dif_neg (by omega : ¬ high < high),
      swapI_eq_some a i high h0i hi h0h hh]
    rfl
  have hval : ∀ k : Nat, ag aswap k =
      if k = i.toNat then ag a high.toNat
      else if k = high.toNat then ag a i.toNat else ag a k := by
    intro k
    rw [haswap, ag_swap]
  have hpiv : ag aswap i.toNat = ag a high.toNat := by
    rw [hval i.toNat, if_pos rfl]
  refine ⟨aswap, i, hsome, le_refl i, hih, Array.size_swap .. ,
    swap_toList_perm .. , ?_, ?_, ?_, ?_, hpiv⟩
  · intro k hk
    rw [hval k, if_neg (by omega), if_neg (by omega)]
  · intro k hk
    rw [hval k, if_neg (by omega), if_neg (by omega)]
  · intro k hk1 hk2
    rw [hval k, if_neg (by omega), if_neg (by omega), hpiv]
    exact hL k hk1 hk2
  · intro k hk1 hk2
    rw [hpiv]
    by_cases hkh : k = high.toNat
    · rw [hval k, if_neg (by omega), if_pos hkh]
      exact hM i.toNat (by omega) (by omega)
    · rw [hval k, if_neg (by omega), if_neg hkh]
      exact hM k (by omega) (by omega)

theorem partitionLoop_spec [Inhabited α] (lt : α → α → Bool) (high : Int) :
    ∀ (n : Nat) (a : Array α) (i j : Int) (lo : Nat),
      (high - j).toNat ≤ n →
      0 ≤ i → i ≤ j → j ≤ high → high < (a.size : Int) → (lo : Int) ≤ i →
      (∀ k : Nat, lo ≤ k → (k : Int) < i →
        lt (ag a k) (ag a high.toNat) = true) →
      (∀ k : Nat, i ≤ (k : Int) → (k : Int) < j →
        lt (ag a k) (ag a high.toNat) = false) →
      ∃ a2 r, partitionLoop lt high a i j = some (a2, r) ∧
        i ≤ r ∧ r ≤ high ∧ a2.size = a.size ∧
        List.Perm a2.toList a.toList ∧
        (∀ k : Nat, k < lo → ag a2 k = ag a k) ∧
        (∀ k : Nat, high < (k : Int) → ag a2 k = ag a k) ∧
        (∀ k : Nat, lo ≤ k → (k : Int) < r →
          lt (ag a2 k) (ag a2 r.toNat) = true) ∧
        (∀ k : Nat, r < (k : Int) → (k : Int) ≤ high →
          lt (ag a2 k) (ag a2 r.toNat) = false) ∧
        ag a2 r.toNat = ag a high.toNat := by
  intro n
  induction n with
  | zero =>
    intro a i j lo hn h0i hij hjh hhs hloi hL hM
    have hje : j = high := by omega
    subst hje
    exact partitionLoop_exit_spec lt j a i lo h0i hij hhs hloi hL hM
  | succ n ih =>
    intro a i j lo hn h0i hij hjh hhs hloi hL hM
    by_cases hjlt : j < high
    case neg =>
      have hje : j = high := by omega
      subst hje
      exact partitionLoop_exit_spec lt j a i lo h0i hij hhs hloi hL hM
    case pos =>
      have h0j : 0 ≤ j := by omega
      have hjn : j.toNat < a.size := by omega
      have hin : i.toNat < a.size := by omega
      have hhn : high.toNat < a.size := by omega
      have hx := getI_eq_some a j h0j hjn
      have hpv := getI_eq_some a high (by omega) hhn
      by_cases hlt : lt (ag a j.toNat) (ag a high.toNat) = true
      · -- the element at j is below the pivot: swap it to position i
        have hswap := swapI_eq_some a i j h0i hin h0j hjn
        set aswap := a.swap ⟨i.toNat, hin⟩ ⟨j.toNat, hjn⟩ with haswap
        have hstep : partitionLoop lt high a i j =
            partitionLoop lt high aswap (i + 1) (j + 1) := by
          conv_lhs => rw [partitionLoop]
          rw [dif_pos hjlt, hx, hpv, hswap]
          show (if lt (ag a j.toNat) (ag a high.toNat) = true then
              partitionLoop lt high aswap (i + 1) (j + 1)
            else partitionLoop lt high a i (j + 1)) =
            partitionLoop lt high aswap (i + 1) (j + 1)
          rw [if_pos hlt]
        have hsz : aswap.size = a.size := Array.size_swap ..
        have hvals : ∀ k : Nat, ag aswap k =
            if k = i.toNat then ag a j.toNat
            else if k = j.toNat then ag a i.toNat else ag a k := by
          intro k
          rw [haswap, ag_swap]
        have hpivkeep : ag aswap high.toNat = ag a high.toNat := by
          rw [hvals, if_neg (by omega), if_neg (by omega)]
        have hL2 : ∀ k : Nat, lo ≤ k → (k : Int) < i + 1 →
            lt (ag aswap k) (ag aswap high.toNat) = true := by
          intro k hk1 hk2
          rw [hpivkeep]
          by_cases hki : k = i.toNat
          · rw [hvals, if_pos hki]
            exact hlt
          · rw [hvals, if_neg hki, if_neg (by omega)]
            exact hL k hk1 (by omega)
        have hM2 : ∀ k : Nat, i + 1 ≤ (k : Int) → (k : Int) < j + 1 →
            lt (ag aswap k) (ag aswap high.toNat) = false := by
          intro k hk1 hk2
          rw [hpivkeep]
          by_cases hkj : k = j.toNat
          · rw [hvals, if_neg (by omega), if_pos hkj]
            exact hM i.toNat (by omega) (by omega)
          · rw [hvals, if_neg (by omega), if_neg hkj]
            exact hM k (by omega) (by omega)
        obtain ⟨a2, r, heq, hir, hrh, hsz2, hperm2, hbelow2, habove2,
            hCL, hCM, hpivr⟩ :=
          ih aswap (i + 1) (j + 1) lo (by omega) (by omega) (by omega)
            (by omega) (by rw [hsz]; exact hhs) (by omega) hL2 hM2
        refine ⟨a2, r, hstep.trans heq, by omega, hrh,
          by rw [hsz2, hsz], hperm2.trans (swap_toList_perm ..),
          ?_, ?_, hCL, hCM, by rw [hpivr, hpivkeep]⟩
        · intro k hk
          rw [hbelow2 k hk, hvals, if_neg (by omega), if_neg (by omega)]
        · intro k hk
          rw [habove2 k hk, hvals, if_neg (by omega), if_neg (by omega)]
      · -- the element at j is not below the pivot: only advance j
        have hlt2 : lt (ag a j.toNat) (ag a high.toNat) = false := by
          simpa using hlt
        have hstep : partitionLoop lt high a i j =
            partitionLoop lt high a i (j + 1) := by
          conv_lhs => rw [partitionLoop]
          rw [dif_pos hjlt, hx, hpv]
          show (if lt (ag a j.toNat) (ag a high.toNat) = true then
              (match swapI a i j with
                | some a1 => partitionLoop lt high a1 (i + 1) (j + 1)
                | none => none)
            else partitionLoop lt high a i (j + 1)) =
            partitionLoop lt high a i (j + 1)
          rw [if_neg (by simp [hlt2])]
        have hM2 : ∀ k : Nat, i ≤ (k : Int) → (k : Int) < j + 1 →
            lt (ag a k) (ag a high.toNat) = false := by
          intro k hk1 hk2
          by_cases hkj : k = j.toNat
          · rw [hkj]
            exact hlt2
          · exact hM k hk1 (by omega)
        obtain ⟨a2, r, heq, hir, hrh, hsz2, hperm2, hbelow2, habove2,
            hCL, hCM, hpivr⟩ :=
          ih a i (j + 1) lo (by omega) h0i (by omega) (by omega) hhs
            hloi hL hM2
        exact ⟨a2, r, hstep.trans heq, hir, hrh, hsz2, hperm2,
          hbelow2, habove2, hCL, hCM, hpivr⟩

/-! Transfer of a pointwise property of an index segment across an array
permutation that fixes everything outside the segment. -/

theorem ag_toList_getElem? [Inhabited α] (a : Array α) (k : Nat) :
    a.toList[k]? = if k < a.size then some (ag a k) else none := by
  by_cases h : k < a.size
  · rw [if_pos h, List.getElem?_eq_getElem (by simpa using h)]
    rw [ag_eq_get a k h]
    rfl
  · rw [if_neg h, List.getElem?_eq_none]
    simpa using Nat.le_of_not_lt h

theorem take_eq_of_ag_eq [Inhabited α] {a b : Array α} (hsz : b.size = a.size)
    (lo : Nat) (h : ∀ k : Nat, k < lo → ag b k = ag a k) :
    b.toList.take lo = a.toList.take lo := by
  apply List.ext_getElem?
  intro n
  rw [List.getElem?_take, List.getElem?_take]
  by_cases hn : n < lo
  · rw [if_pos hn, if_pos hn, ag_toList_getElem?, ag_toList_getElem?, hsz]
    by_cases hna : n < a.size
    · rw [if_pos hna, if_pos hna, h n hn]
    · rw [if_neg hna, if_neg hna]
  · rw [if_neg hn, if_neg hn]

theorem drop_eq_of_ag_eq [Inhabited α] {a b : Array α} (hsz : b.size = a.size)
    (hi : Nat) (h : ∀ k : Nat, hi < k → ag b k = ag a k) :
    b.toList.drop (hi + 1) = a.toList.drop (hi + 1) := by
  apply List.ext_getElem?
  intro n
  rw [List.getElem?_drop, List.getElem?_drop,
    ag_toList_getElem?, ag_toList_getElem?, hsz]
  by_cases hna : hi + 1 + n < a.size
  · rw [if_pos hna, if_pos hna, h (hi + 1 + n) (by omega)]
  · rw [if_neg hna, if_neg hna]

theorem seg_perm [Inhabited α] {a b : Array α} (hsz : b.size = a.size)
    (hperm : List.Perm b.toList a.toList) (lo hi : Nat)
    (hlow : ∀ k : Nat, k < lo → ag b k = ag a k)
    (hhigh : ∀ k : Nat, hi < k → ag b k = ag a k) :
    List.Perm ((b.toList.drop lo).take (hi + 1 - lo))
      ((a.toList.drop lo).take (hi + 1 - lo)) := by
  by_cases hlohi : lo ≤ hi + 1
  · have hdecomp : ∀ l : List α, l = l.take lo ++
        ((l.drop lo).take (hi + 1 - lo) ++ l.drop (hi + 1)) := by
      intro l
      conv_lhs => rw [← List.take_append_drop lo l]
      congr 1
      conv_lhs => rw [← List.take_append_drop (hi + 1 - lo) (l.drop lo)]
      rw [List.drop_drop]
      congr 2
      omega
    have hperm2 : List.Perm
        (b.toList.take lo ++
          ((b.toList.drop lo).take (hi + 1 - lo) ++ b.toList.drop (hi + 1)))
        (a.toList.take lo ++
          ((a.toList.drop lo).take (hi + 1 - lo) ++ a.toList.drop (hi + 1))) := by
      rw [← hdecomp b.toList, ← hdecomp a.toList]
      exact hperm
    rw [take_eq_of_ag_eq hsz lo hlow, drop_eq_of_ag_eq hsz hi hhigh] at hperm2
    have h1 := (List.perm_append_left_iff (a.toList.take lo)).mp hperm2
    exact (List.perm_append_right_iff (a.toList.drop (hi + 1))).mp h1
  · have h0 : hi + 1 - lo = 0 := by omega
    rw [h0]
    simp

theorem seg_transfer [Inhabited α] {a b : Array α} (hsz : b.size = a.size)
    (hperm : List.Perm b.toList a.toList) (lo hi : Nat)
    (hlow : ∀ k : Nat, k < lo → ag b k = ag a k)
    (hhigh : ∀ k : Nat, hi < k → ag b k = ag a k)
    (P : α → Prop)
    (hP : ∀ k : Nat, lo ≤ k → k ≤ hi → k < a.size → P (ag a k)) :
    ∀ k : Nat, lo ≤ k → k ≤ hi → k < b.size → P (ag b k) := by
  intro k hk1 hk2 hk3
  have hsp := seg_perm hsz hperm lo hi hlow hhigh
  have hmem : ag b k ∈ (b.toList.drop lo).take (hi + 1 - lo) := by
    have hgk : ((b.toList.drop lo).take (hi + 1 - lo))[k - lo]? =
        some (ag b k) := by
      rw [List.getElem?_take, if_pos (by omega), List.getElem?_drop,
        show lo + (k - lo) = k from by omega, ag_toList_getElem?,
        if_pos hk3]
    exact List.getElem?_mem hgk
  have hmem2 := hsp.mem_iff.mp hmem
  obtain ⟨m, hmlt, hma⟩ := List.getElem_of_mem hmem2
  have hmlen : m < hi + 1 - lo ∧ lo + m < a.toList.length := by
    have h1 := hmlt
    simp only [List.length_take, List.length_drop] at h1
    omega
  have hval : ((a.toList.drop lo).take (hi + 1 - lo))[m] =
      ag a (lo + m) := by
    rw [List.getElem_take, List.getElem_drop, ag_eq_get a (lo + m)
      (by simpa using hmlen.2)]
    rfl
  rw [← hma, hval]
  exact hP (lo + m) (by omega) (by omega) (by simpa using hmlen.2)

/-! Full specification of the embedded quickSort: it always succeeds (no
out-of-range access), permutes the array, touches only the index range from
low to high, and sorts that range whenever the comparator is transitive and
asymmetric. -/

theorem goQuickSort_spec [Inhabited α] (lt : α → α → Bool) :
    ∀ (n : Nat) (a : Array α) (low high : Int),
      (high - low).toNat ≤ n → 0 ≤ low → high < (a.size : Int) →
      ∃ a2, goQuickSort a low high lt = some a2 ∧
        a2.size = a.size ∧ List.Perm a2.toList a.toList ∧
        (∀ k : Nat, (k : Int) < low → ag a2 k = ag a k) ∧
        (∀ k : Nat, high < (k : Int) → ag a2 k = ag a k) ∧
        (TransB lt → AsymB lt → sortedRange lt a2 low high) := by
  intro n
  induction n with
  | zero =>
    intro a low high hn h0 hs
    have hlh : ¬ low < high := by omega
    refine ⟨a, by rw [goQuickSort, dif_neg hlh], rfl, List.Perm.refl _,
      fun _ _ => rfl, fun _ _ => rfl, ?_⟩
    intro _ _ p q hp hpq hq
    exact absurd hq (by omega)
  | succ n ih =>
    intro a low high hn h0 hs
    by_cases hlh : low < high
    case neg =>
      refine ⟨a, by rw [goQuickSort, dif_neg hlh], rfl, List.Perm.refl _,
        fun _ _ => rfl, fun _ _ => rfl, ?_⟩
      intro _ _ p q hp hpq hq
      exact absurd hq (by omega)
    case pos =>
      obtain ⟨a1, r, hpart, hlr, hrh, hsz1, hperm1, hbelow1, habove1,
          hCL, hCM, _hpiv⟩ :=
        partitionLoop_spec lt high ((high - low).toNat) a low low low.toNat
          (le_refl _) h0 (le_refl low) (by omega) hs (by omega)
          (by intro k hk1 hk2; exact absurd hk2 (by omega))
          (by intro k hk1 hk2; exact absurd hk2 (by omega))
      obtain ⟨a2, hq2, hsz2, hperm2, hbelow2, habove2, hsort2⟩ :=
        ih a1 low (r - 1) (by omega) h0 (by rw [hsz1]; omega)
      obtain ⟨a3, hq3, hsz3, hperm3, hbelow3, habove3, hsort3⟩ :=
        ih a2 (r + 1) high (by omega) (by omega)
          (by rw [hsz2, hsz1]; exact hs)
      have hgp : goPartition a low high lt = some (a1, r) := hpart
      have hrun : goQuickSort a low high lt = some a3 := by
        rw [goQuickSort, dif_pos hlh]
        split
        next a4 p4 heq =>
          rw [hgp] at heq
          injection heq with heq2
          injection heq2 with heq3 heq4
          subst heq3
          subst heq4
          rw [hq2]
          show goQuickSort a2 (r + 1) high lt = some a3
          exact hq3
        next heq =>
          rw [hgp] at heq
          exact absurd heq (by simp)
      refine ⟨a3, hrun, by rw [hsz3, hsz2, hsz1],
        (hperm3.trans hperm2).trans hperm1, ?_, ?_, ?_⟩
      · intro k hk
        rw [hbelow3 k (by omega), hbelow2 k hk, hbelow1 k (by omega)]
      · intro k hk
        rw [habove3 k hk, habove2 k (by omega), habove1 k hk]
      · intro htr hasy
        have hpv2 : ag a2 r.toNat = ag a1 r.toNat := habove2 r.toNat (by omega)
        have hpv3 : ag a3 r.toNat = ag a2 r.toNat := hbelow3 r.toNat (by omega)
        have hpval : ag a3 r.toNat = ag a1 r.toNat := by rw [hpv3, hpv2]
        have hF1 : ∀ k : Nat, low ≤ (k : Int) → (k : Int) < r →
            lt (ag a3 k) (ag a1 r.toNat) = true := by
          intro k hk1 hk2
          have hr1 : low < r := by omega
          have hk3 : k < a2.size := by omega
          have htrans := seg_transfer (a := a1) (b := a2) hsz2 hperm2
            low.toNat (r.toNat - 1)
            (fun k2 hk2a => hbelow2 k2 (by omega))
            (fun k2 hk2a => habove2 k2 (by omega))
            (fun x => lt x (ag a1 r.toNat) = true)
            (fun k2 hk2a hk2b _hk2c => hCL k2 hk2a (by omega))
            k (by omega) (by omega) hk3
          rw [hbelow3 k (by omega)]
          exact htrans
        have hF2 : ∀ k : Nat, r < (k : Int) → (k : Int) ≤ high →
            lt (ag a3 k) (ag a1 r.toNat) = false := by
          intro k hk1 hk2
          have hk3 : k < a3.size := by omega
          exact seg_transfer (a := a2) (b := a3) hsz3 hperm3
            (r.toNat + 1) high.toNat
            (fun k2 hk2a => hbelow3 k2 (by omega))
            (fun k2 hk2a => habove3 k2 (by omega))
            (fun x => lt x (ag a1 r.toNat) = false)
            (fun k2 hk2a hk2b _hk2c => by
              rw [habove2 k2 (by omega)]
              exact hCM k2 (by omega) (by omega))
            k (by omega) (by omega) hk3
        intro p q hp hpq hq
        by_cases hqr : (q : Int) < r
        · rw [hbelow3 p (by omega), hbelow3 q (by omega)]
          exact hsort2 htr hasy p q hp (by omega) (by omega)
        · by_cases hqe : (q : Int) = r
          · have hqq : q = r.toNat := by omega
            rw [hqq, hpval]
            exact hasy _ _ (hF1 p hp (by omega))
          · by_cases hpr : r < (p : Int)
            · exact hsort3 htr hasy p q (by omega) (by omega) hq
            · by_cases hpe : (p : Int) = r
              · have hpp : p = r.toNat := by omega
                rw [hpp, hpval]
                exact hF2 q (by omega) hq
              · have h1 := hF1 p hp (by omega)
                have h2 := hF2 q (by omega) hq
                cases hcase : lt (ag a3 q) (ag a3 p) with
                | false => rfl
                | true => exact absurd (htr _ _ _ hcase h1) (by simp [h2])

/-! Specialisation to the comparator of readDir. -/

theorem ldsLess_false_eq (a b : FileInfo) :
    ldsLess false a b = decide (lowerName a.name < lowerName b.name) := rfl

theorem ldsLess_true_eq (a b : FileInfo) :
    ldsLess true a b = decide (lowerName b.name < lowerName a.name) := rfl

theorem ldsLess_transB (rev : Bool) : TransB (ldsLess rev) := by
  intro x y z hxy hyz
  cases rev
  · rw [ldsLess_false_eq, decide_eq_true_eq] at hxy hyz ⊢
    exact lt_trans hxy hyz
  · rw [ldsLess_true_eq, decide_eq_true_eq] at hxy hyz ⊢
    exact lt_trans hyz hxy

theorem ldsLess_asymB (rev : Bool) : AsymB (ldsLess rev) := by
  intro x y hxy
  cases rev
  · rw [ldsLess_false_eq, decide_eq_true_eq] at hxy
    rw [ldsLess_false_eq, decide_eq_false_iff_not]
    exact lt_asymm hxy
  · rw [ldsLess_true_eq, decide_eq_true_eq] at hxy
    rw [ldsLess_true_eq, decide_eq_false_iff_not]
    exact lt_asymm hxy

theorem sortedRange_pairwise [Inhabited α] (lt : α → α → Bool) (a2 : Array α)
    (hs : sortedRange lt a2 0 ((a2.size : Int) - 1)) :
    a2.toList.Pairwise (fun u v => lt v u = false) := by
  rw [List.pairwise_iff_getElem]
  intro i j hi hj hij
  have his : i < a2.size := by simpa using hi
  have hjs : j < a2.size := by simpa using hj
  have h := hs i j (by omega) hij (by omega)
  have hgi : ag a2 i = a2.toList[i] := by
    rw [ag_eq_get a2 i his]; rfl
  have hgj : ag a2 j = a2.toList[j] := by
    rw [ag_eq_get a2 j hjs]; rfl
  rw [← hgi, ← hgj]
  exact h

theorem sortEntries_spec (l : List FileInfo) (rev : Bool) :
    ∃ out, sortEntries l rev = some out ∧ List.Perm out l ∧
      out.Pairwise (fun u v => ldsLess rev v u = false) := by
  obtain ⟨a2, hrun, hsz, hperm, _hb, _ha, hsorted⟩ :=
    goQuickSort_spec (ldsLess rev) l.length (Array.mk l) 0
      ((l.length : Int) - 1) (by omega) (by omega)
      (by show ((l.length : Int) - 1) < (l.length : Int); omega)
  have hsz2 : a2.size = l.length := hsz
  refine ⟨a2.toList, ?_, hperm, ?_⟩
  · rw [sortEntries, hrun]
    rfl
  · apply sortedRange_pairwise
    have := hsorted (ldsLess_transB rev) (ldsLess_asymB rev)
    rw [show ((a2.size : Int) - 1) = ((l.length : Int) - 1) from by
      rw [hsz2]]
    exact this

/-- C1: for every readable directory, readDir returns a permutation of the
filtered immediate children, ordered by case-insensitive comparison of
names, ascending when the reverse flag is false and descending when it is
true. -/
theorem c1_readDir_sorted (fs : FS) (path : String) (sh rv : Bool)
    (raw : List FileInfo) (hread : fs.readdirRaw path = some raw) :
    ∃ out, readDirGo fs path sh rv = some (.ok out) ∧
      List.Perm out (hiddenFilter sh raw) ∧
      (rv = false →
        out.Pairwise fun u v => lowerName u.name ≤ lowerName v.name) ∧
      (rv = true →
        out.Pairwise fun u v => lowerName v.name ≤ lowerName u.name) := by
  obtain ⟨out, hrun, hperm, hpair⟩ := sortEntries_spec (hiddenFilter sh raw) rv
  refine ⟨out, ?_, hperm, ?_, ?_⟩
  · simp only [readDirGo, hread, readDirSorted, hrun, Option.map]
  · intro hrv
    subst hrv
    refine hpair.imp ?_
    intro u v h
    rw [ldsLess_false_eq, decide_eq_false_iff_not] at h
    exact le_of_not_lt h
  · intro hrv
    subst hrv
    refine hpair.imp ?_
    intro u v h
    rw [ldsLess_true_eq, decide_eq_false_iff_not] at h
    exact le_of_not_lt h

/-- Witness for C1 on the sample filesystem. -/
theorem c1_readDir_sorted_witness :
    fsW.readdirRaw "d" = some [fileW, dirW, linkW] ∧
    (∃ out, readDirGo fsW "d" false false = some (.ok out) ∧
      List.Perm out (hiddenFilter false [fileW, dirW, linkW]) ∧
      (false = false →
        out.Pairwise fun u v => lowerName u.name ≤ lowerName v.name) ∧
      (false = true →
        out.Pairwise fun u v => lowerName v.name ≤ lowerName u.name)) :=
  ⟨rfl, c1_readDir_sorted fsW "d" false false [fileW, dirW, linkW] rfl⟩

/-- C2: with show-hidden disabled, readDir yields exactly the entries whose
names do not start with a dot; with it enabled, no entry is dropped. -/
theorem c2_hidden_filtering (fs : FS) (path : String) (rv : Bool)
    (raw : List FileInfo) (hread : fs.readdirRaw path = some raw) :
    (∃ out, readDirGo fs path false rv = some (.ok out) ∧
      List.Perm out (raw.filter fun e => !(e.name.startsWith "."))) ∧
    (∃ out, readDirGo fs path true rv = some (.ok out) ∧
      List.Perm out raw) := by
  constructor
  · obtain ⟨out, hrun, hperm, _⟩ := sortEntries_spec (hiddenFilter false raw) rv
    refine ⟨out, ?_, ?_⟩
    · simp only [readDirGo, hread, readDirSorted, hrun, Option.map]
    · have hf : hiddenFilter false raw =
          raw.filter fun e => !(e.name.startsWith ".") := by
        simp [hiddenFilter]
      rwa [hf] at hperm
  · obtain ⟨out, hrun, hperm, _⟩ := sortEntries_spec (hiddenFilter true raw) rv
    refine ⟨out, ?_, ?_⟩
    · simp only [readDirGo, hread, readDirSorted, hrun, Option.map]
    · have hf : hiddenFilter true raw = raw := by
        simp [hiddenFilter]
      rwa [hf] at hperm

/-- Witness for C2 on the sample filesystem. -/
theorem c2_hidden_filtering_witness :
    fsW.readdirRaw "d" = some [fileW, dirW, linkW] ∧
    ((∃ out, readDirGo fsW "d" false true = some (.ok out) ∧
      List.Perm out
        ([fileW, dirW, linkW].filter fun e => !(e.name.startsWith "."))) ∧
    (∃ out, readDirGo fsW "d" true true = some (.ok out) ∧
      List.Perm out [fileW, dirW, linkW])) :=
  ⟨rfl, c2_hidden_filtering fsW "d" true [fileW, dirW, linkW] rfl⟩

/-! The sort on a concrete two-element array whose first element is not
below the second under the comparator: the final pivot swap of the Lomuto
partition exchanges the two elements. -/

theorem goQuickSort_pair (lt : FileInfo → FileInfo → Bool) (x y : FileInfo)
    (h : lt x y = false) :
    goQuickSort (Array.mk [x, y]) 0 1 lt = some (Array.mk [y, x]) := by
  have hag0 : ag (Array.mk [x, y]) (0 : Int).toNat = x := rfl
  have hag1 : ag (Array.mk [x, y]) (1 : Int).toNat = y := rfl
  have hpart : partitionLoop lt 1 (Array.mk [x, y]) 0 0 =
      some (Array.mk [y, x], 0) := by
    rw [partitionLoop, dif_pos (by decide : (0 : Int) < 1),
      getI_eq_some (Array.mk [x, y]) 0 (by decide)
        (by decide : (0 : Nat) < 2),
      getI_eq_some (Array.mk [x, y]) 1 (by decide)
        (by decide : (1 : Nat) < 2),
      hag0, hag1]
    show (if lt x y = true then
        (match swapI (Array.mk [x, y]) 0 0 with
          | some a1 => partitionLoop lt 1 a1 (0 + 1) (0 + 1)
          | none => none)
      else partitionLoop lt 1 (Array.mk [x, y]) 0 (0 + 1)) =
      some (Array.mk [y, x], 0)
    rw [if_neg (by simp [h]), partitionLoop,
      dif_neg (by decide : ¬ ((0 : Int) + 1) < 1),
      swapI_eq_some (Array.mk [x, y]) 0 (1 : Int) (by decide)
        (by decide : (0 : Nat) < 2) (by decide) (by decide : (1 : Nat) < 2)]
    rfl
  have hgp : goPartition (Array.mk [x, y]) 0 1 lt =
      some (Array.mk [y, x], 0) := hpart
  rw [goQuickSort, dif_pos (by decide : (0 : Int) < 1)]
  split
  next a4 p4 heq =>
    rw [hgp] at heq
    injection heq with heq2
    injection heq2 with heq3 heq4
    subst heq3
    subst heq4
    rw [show goQuickSort (Array.mk [y, x]) 0 ((0 : Int) - 1) lt =
        some (Array.mk [y, x]) from by
      rw [goQuickSort, dif_neg (by decide : ¬ (0 : Int) < 0 - 1)]]
    show goQuickSort (Array.mk [y, x]) ((0 : Int) + 1) 1 lt =
      some (Array.mk [y, x])
    rw [goQuickSort, dif_neg (by decide : ¬ ((0 : Int) + 1) < 1)]
  next heq =>
    rw [hgp] at heq
    exact absurd heq (by simp)

/-- Counterexample to C6: the entries named A and a have equal case-folded
names; sorting their ascending sort once more changes the list again, and
the reverse of the ascending sort differs from the descending sort. -/
theorem c6_counterexample :
    ((sortEntries [entAW, entaW] false).bind fun y => sortEntries y false) ≠
      sortEntries [entAW, entaW] false ∧
    (sortEntries [entAW, entaW] false).map List.reverse ≠
      sortEntries [entAW, entaW] true := by
  have hAa : ldsLess false entAW entaW = false := by
    rw [ldsLess_false_eq, decide_eq_false_iff_not]
    intro hcon
    rw [show lowerName entAW.name = "a" from rfl,
      show lowerName entaW.name = "a" from rfl] at hcon
    exact lt_irrefl _ hcon
  have haA : ldsLess false entaW entAW = false := by
    rw [ldsLess_false_eq, decide_eq_false_iff_not]
    intro hcon
    rw [show lowerName entaW.name = "a" from rfl,
      show lowerName entAW.name = "a" from rfl] at hcon
    exact lt_irrefl _ hcon
  have hdesc : ldsLess true entAW entaW = false := by
    rw [ldsLess_true_eq, decide_eq_false_iff_not]
    intro hcon
    rw [show lowerName entAW.name = "a" from rfl,
      show lowerName entaW.name = "a" from rfl] at hcon
    exact lt_irrefl _ hcon
  have h1 : sortEntries [entAW, entaW] false = some [entaW, entAW] := by
    show (goQuickSort (Array.mk [entAW, entaW]) 0 1 (ldsLess false)).map
      Array.toList = some [entaW, entAW]
    rw [goQuickSort_pair (ldsLess false) entAW entaW hAa]
    rfl
  have h2 : sortEntries [entaW, entAW] false = some [entAW, entaW] := by
    show (goQuickSort (Array.mk [entaW, entAW]) 0 1 (ldsLess false)).map
      Array.toList = some [entAW, entaW]
    rw [goQuickSort_pair (ldsLess false) entaW entAW haA]
    rfl
  have h3 : sortEntries [entAW, entaW] true = some [entaW, entAW] := by
    show (goQuickSort (Array.mk [entAW, entaW]) 0 1 (ldsLess true)).map
      Array.toList = some [entaW, entAW]
    rw [goQuickSort_pair (ldsLess true) entAW entaW hdesc]
    rfl
  constructor
  · rw [h1]
    show sortEntries [entaW, entAW] false ≠ some [entaW, entAW]
    rw [h2]
    decide
  · rw [h1, h3]
    show some [entAW, entaW] ≠ some [entaW, entAW]
    decide

/-- C6 as amended: on entry lists whose case-folded names are pairwise
distinct, sorting is idempotent and the reverse of the ascending sort is
exactly the descending sort. -/
theorem c6_sort_idempotent_reverse_amended (x : List FileInfo)
    (hdist : x.Pairwise fun a b => lowerName a.name ≠ lowerName b.name) :
    ∃ y z, sortEntries x false = some y ∧ sortEntries y false = some y ∧
      sortEntries x true = some z ∧ z = y.reverse := by
  haveI hanti1 : IsAntisymm FileInfo
      (fun a b => lowerName a.name < lowerName b.name) :=
    ⟨fun _ _ h1 h2 => (lt_asymm h1 h2).elim⟩
  haveI hanti2 : IsAntisymm FileInfo
      (fun a b => lowerName b.name < lowerName a.name) :=
    ⟨fun _ _ h1 h2 => (lt_asymm h1 h2).elim⟩
  obtain ⟨y, hy, hyx, hysort⟩ := sortEntries_spec x false
  obtain ⟨z, hz, hzx, hzsort⟩ := sortEntries_spec x true
  have hdisty : y.Pairwise fun a b => lowerName a.name ≠ lowerName b.name :=
    (hyx.pairwise_iff fun h => h.symm).mpr hdist
  have hdistz : z.Pairwise fun a b => lowerName a.name ≠ lowerName b.name :=
    (hzx.pairwise_iff fun h => h.symm).mpr hdist
  have hley : y.Pairwise fun a b => lowerName a.name ≤ lowerName b.name := by
    refine hysort.imp ?_
    intro u v h
    rw [ldsLess_false_eq, decide_eq_false_iff_not] at h
    exact le_of_not_lt h
  have hstricty : y.Pairwise fun a b =>
      lowerName a.name < lowerName b.name := by
    refine (hley.and hdisty).imp ?_
    intro u v h
    exact lt_of_le_of_ne h.1 h.2
  obtain ⟨y2, hy2, hy2y, hy2sort⟩ := sortEntries_spec y false
  have hdisty2 : y2.Pairwise fun a b =>
      lowerName a.name ≠ lowerName b.name :=
    (hy2y.pairwise_iff fun h => h.symm).mpr hdisty
  have hley2 : y2.Pairwise fun a b =>
      lowerName a.name ≤ lowerName b.name := by
    refine hy2sort.imp ?_
    intro u v h
    rw [ldsLess_false_eq, decide_eq_false_iff_not] at h
    exact le_of_not_lt h
  have hstricty2 : y2.Pairwise fun a b =>
      lowerName a.name < lowerName b.name := by
    refine (hley2.and hdisty2).imp ?_
    intro u v h
    exact lt_of_le_of_ne h.1 h.2
  have hy2eq : y2 = y := List.eq_of_perm_of_sorted hy2y hstricty2 hstricty
  have hlez : z.Pairwise fun a b => lowerName b.name ≤ lowerName a.name := by
    refine hzsort.imp ?_
    intro u v h
    rw [ldsLess_true_eq, decide_eq_false_iff_not] at h
    exact le_of_not_lt h
  have hstrictz : z.Pairwise fun a b =>
      lowerName b.name < lowerName a.name := by
    refine (hlez.and hdistz).imp ?_
    intro u v h
    exact lt_of_le_of_ne h.1 h.2.symm
  have hstrictyrev : y.reverse.Pairwise fun a b =>
      lowerName b.name < lowerName a.name :=
    List.pairwise_reverse.mpr hstricty
  have hpermzy : List.Perm z y.reverse :=
    (hzx.trans hyx.symm).trans (y.reverse_perm).symm
  have hzeq : z = y.reverse :=
    List.eq_of_perm_of_sorted hpermzy hstrictz hstrictyrev
  exact ⟨y, z, hy, by rw [hy2eq] at hy2; exact hy2, hz, hzeq⟩

/-- Witness for the amended C6 on two concretely distinct names. -/
theorem c6_amended_witness :
    (List.Pairwise (fun a b => lowerName a.name ≠ lowerName b.name)
      [dirW, fileW]) ∧
    (∃ y z, sortEntries [dirW, fileW] false = some y ∧
      sortEntries y false = some y ∧
      sortEntries [dirW, fileW] true = some z ∧ z = y.reverse) := by
  have hp : List.Pairwise (fun a b => lowerName a.name ≠ lowerName b.name)
      [dirW, fileW] := by
    refine List.Pairwise.cons ?_ (List.pairwise_singleton _ _)
    intro b hb
    rw [List.mem_singleton] at hb
    subst hb
    decide
  exact ⟨hp, c6_sort_idempotent_reverse_amended [dirW, fileW] hp⟩

/-! Shape of the printed node lines: outside the root, every line starts
with the prefix handed to printNode. -/

theorem printNode_nonroot_shape (name : String) (info : FileInfo)
    (opts : Options) (pre : String) ( printName : Bool) (linkTarget : String)
    (isSymlink : Bool) :
    ∃ body, printNode name info opts pre false printName linkTarget isSymlink
      = pre ++ body := by
  by_cases hl : opts.longFormat = true
  · refine ⟨(if isSymlink && linkTarget ≠ "" && !opts.noSymlink
        && !opts.derefLinks then name ++ " -> " ++ linkTarget else name)
      ++ (" " ++ (info.permStr ++ (" " ++ (fmtSize info.size
        ++ (" " ++ info.modTimeStr))))), ?_⟩
    simp only [printNode, Bool.false_eq_true, if_false, hl, if_true,
      String.append_assoc]
  · refine ⟨(if isSymlink && linkTarget ≠ "" && !opts.noSymlink
        && !opts.derefLinks then name ++ " -> " ++ linkTarget else name), ?_⟩
    simp only [printNode, Bool.false_eq_true, if_false, hl]

theorem processEntry_head (fs : FS) (opts : Options)
    (recur : String → String → Option (Except FsErr (List String × List Warn)))
    (path pre : String) (e : FileInfo) (isLast : Bool)
    (ls : List String) (ws : List Warn)
    (hrun : processEntry fs opts recur path pre e isLast = some (ls, ws)) :
    ∃ body rest2, ls =
      ((pre ++ (if isLast then branch else tee)) ++ body) :: rest2 := by
  rw [processEntry] at hrun
  rcases hres : resolveEntry fs opts e (joinPath path e.name) with
    ⟨entry, entryPath, isLink, linkTarget⟩
  rw [hres] at hrun
  simp only at hrun
  obtain ⟨body, hb⟩ := printNode_nonroot_shape entry.name entry opts
    (pre ++ (if isLast then branch else tee)) true linkTarget isLink
  by_cases hd : entry.isDir = true
  · rw [if_pos hd] at hrun
    match hrec : recur entryPath (pre ++ (if isLast then space else pipe)) with
    | none => rw [hrec] at hrun; exact absurd hrun (by simp)
    | some (.error err) =>
      rw [hrec] at hrun
      obtain ⟨rfl, rfl⟩ : _ ∧ _ := by simpa using hrun
      exact ⟨body, [], by rw [hb]⟩
    | some (.ok (ls2, ws2)) =>
      rw [hrec] at hrun
      obtain ⟨rfl, rfl⟩ : _ ∧ _ := by simpa using hrun
      exact ⟨body, ls2, by rw [hb]⟩
  · rw [if_neg hd] at hrun
    obtain ⟨rfl, rfl⟩ : _ ∧ _ := by simpa using hrun
    exact ⟨body, [], by rw [hb]⟩

theorem processEntries_blocks (fs : FS) (opts : Options)
    (recur : String → String → Option (Except FsErr (List String × List Warn)))
    (path pre : String) :
    ∀ (entries : List FileInfo) (lines : List String) (warns : List Warn),
      processEntries fs opts recur path pre entries = some (lines, warns) →
      ∃ blocks : List (List String), blocks.length = entries.length ∧
        lines = blocks.flatten ∧
        ∀ i (hi : i < blocks.length), ∃ body,
          blocks[i].head? = some
            ((pre ++ (if i = entries.length - 1 then branch else tee))
              ++ body) := by
  intro entries
  induction entries with
  | nil =>
    intro lines warns h
    simp only [processEntries] at h
    obtain ⟨rfl, rfl⟩ : _ ∧ _ := by simpa using h.symm
    exact ⟨[], rfl, rfl, fun i hi => absurd hi (by simp)⟩
  | cons e rest ih =>
    intro lines warns h
    simp only [processEntries] at h
    match hpe : processEntry fs opts recur path pre e rest.isEmpty with
    | none => rw [hpe] at h; exact absurd h (by simp)
    | some (ls, ws) =>
      rw [hpe] at h
      match hrest : processEntries fs opts recur path pre rest with
      | none => rw [hrest] at h; exact absurd h (by simp)
      | some (ls2, ws2) =>
        rw [hrest] at h
        obtain ⟨rfl, rfl⟩ : ls ++ ls2 = lines ∧ ws ++ ws2 = warns := by
          simpa using h
        obtain ⟨blocks2, hlen2, hflat2, hhead2⟩ := ih ls2 ws2 hrest
        obtain ⟨body, rest2, hls⟩ :=
          processEntry_head fs opts recur path pre e rest.isEmpty ls ws hpe
        refine ⟨ls :: blocks2, by simp [hlen2], by simp [hflat2], ?_⟩
        intro i hi
        match i with
        | 0 =>
          refine ⟨body, ?_⟩
          rw [show (ls :: blocks2)[0] = ls from rfl, hls]
          by_cases hre : rest = []
          · subst hre
            rfl
          · have h1 : rest.isEmpty = false := by
              simpa [List.isEmpty_iff] using hre
            have h2 : ¬ (0 = (e :: rest).length - 1) := by
              simp only [List.length_cons]
              have : rest.length ≠ 0 := by
                simpa [List.length_eq_zero] using hre
              omega
            rw [h1, if_neg h2]
            rfl
        | i + 1 =>
          have hi2 : i < blocks2.length := by simpa using hi
          obtain ⟨body2, hb2⟩ := hhead2 i hi2
          refine ⟨body2, ?_⟩
          rw [show (ls :: blocks2)[i + 1] = blocks2[i] from rfl, hb2]
          have hrne : rest.length ≠ 0 := by omega
          by_cases hc : i = rest.length - 1
          · rw [if_pos hc, if_pos (by simp only [List.length_cons]; omega)]
          · rw [if_neg hc, if_neg (by simp only [List.length_cons]; omega)]

/-- C3: in every listing processed during traversal, the printed output
decomposes into one block per child; the first line of the block of the
last child carries the branch glyph appended to the inherited prefix, and
the first line of the block of every other child carries the tee glyph. -/
theorem c3_branch_glyphs (fs : FS) (opts : Options)
    (recur : String → String → Option (Except FsErr (List String × List Warn)))
    (path pre : String) (entries : List FileInfo)
    (lines : List String) (warns : List Warn)
    (_hne : entries ≠ [])
    (hrun : processEntries fs opts recur path pre entries =
      some (lines, warns)) :
    ∃ blocks : List (List String), blocks.length = entries.length ∧
      lines = blocks.flatten ∧
      ∀ i (hi : i < blocks.length), ∃ body,
        blocks[i].head? = some
          ((pre ++ (if i = entries.length - 1 then branch else tee))
            ++ body) :=
  processEntries_blocks fs opts recur path pre entries lines warns hrun

/-- Witness for C3: a two-child listing, with tee on the first child and
branch on the second. -/
theorem c3_branch_glyphs_witness :
    ([fileW, dirW] ≠ ([] : List FileInfo)) ∧
    (processEntries fsW optsW (fun _ _ => some (.ok ([], []))) "d" ""
        [fileW, dirW] = some (["├─ a.txt", "╰─ sub"], [])) ∧
    (∃ blocks : List (List String), blocks.length = [fileW, dirW].length ∧
      ["├─ a.txt", "╰─ sub"] = blocks.flatten ∧
      ∀ i (hi : i < blocks.length), ∃ body,
        blocks[i].head? = some
          (("" ++ (if i = [fileW, dirW].length - 1 then branch else tee))
            ++ body)) :=
  ⟨by simp, rfl,
    c3_branch_glyphs fsW optsW (fun _ _ => some (.ok ([], []))) "d" ""
      [fileW, dirW] ["├─ a.txt", "╰─ sub"] [] (by simp) rfl⟩

/-! Symlink handling: the three outcomes of the resolution block. -/

theorem resolveEntry_readlink (fs : FS) (opts : Options) (e : FileInfo)
    (p t : String) (hsym : e.isSymlink = true)
    (hderef : opts.derefLinks = false) (hnos : opts.noSymlink = false)
    (hrl : fs.readlink p = some t) :
    resolveEntry fs opts e p = (e, p, true, t) := by
  rw [resolveEntry, if_neg (by simp [hderef]), if_pos (by simp [hsym, hnos]),
    hrl, hsym]

theorem resolveEntry_deref_ok (fs : FS) (opts : Options) (e : FileInfo)
    (p tp : String) (ti : FileInfo) (hsym : e.isSymlink = true)
    (hderef : opts.derefLinks = true) (hev : fs.evalSymlinks p = some tp)
    (hst : fs.stat tp = some ti) :
    resolveEntry fs opts e p = (ti, tp, false, "") := by
  rw [resolveEntry, if_pos (by simp [hsym, hderef]), hev]
  simp only [hst]

theorem resolveEntry_deref_fail (fs : FS) (opts : Options) (e : FileInfo)
    (p : String) (hsym : e.isSymlink = true) (hderef : opts.derefLinks = true)
    (hfail : fs.evalSymlinks p = none ∨
      ∃ tp, fs.evalSymlinks p = some tp ∧ fs.stat tp = none) :
    resolveEntry fs opts e p = (e, p, true, "") := by
  rcases hfail with hnone | ⟨tp, hsome, hstat⟩
  · rw [resolveEntry, if_pos (by simp [hsym, hderef]), hnone, hsym]
  · rw [resolveEntry, if_pos (by simp [hsym, hderef]), hsome]
    simp only [hstat, hsym]

/-- C4: a symlink entry, with neither dereference-links nor no-symlink set
and a readable link target, is displayed as name, arrow, immediate target,
and printTree does not recurse into it: the entry contributes exactly its
own node line no matter what the recursion would return. -/
theorem c4_symlink_display_no_recursion (fs : FS) (opts : Options)
    (recur : String → String → Option (Except FsErr (List String × List Warn)))
    (path pre : String) (e : FileInfo) (isLast : Bool) (t : String)
    (hsym : e.isSymlink = true) (hderef : opts.derefLinks = false)
    (hnos : opts.noSymlink = false)
    (hrl : fs.readlink (joinPath path e.name) = some t) (ht : t ≠ "")
    (hdir : e.isDir = false) :
    processEntry fs opts recur path pre e isLast =
      some ([printNode e.name e opts
        (pre ++ (if isLast then branch else tee)) false true t true], []) ∧
    ∃ s, printNode e.name e opts (pre ++ (if isLast then branch else tee))
        false true t true =
      ((pre ++ (if isLast then branch else tee)) ++ (e.name ++ " -> " ++ t))
        ++ s := by
  have hres := resolveEntry_readlink fs opts e (joinPath path e.name) t
    hsym hderef hnos hrl
  constructor
  · simp only [processEntry, hres, hdir, Bool.false_eq_true, if_false]
  · have hcond : (true && t ≠ "" && !opts.noSymlink && !opts.derefLinks)
        = true := by
      simp [hnos, hderef, ht]
    by_cases hl : opts.longFormat = true
    · refine ⟨" " ++ (e.permStr ++ (" " ++ (fmtSize e.size
        ++ (" " ++ e.modTimeStr)))), ?_⟩
      simp only [printNode, Bool.false_eq_true, if_false, hl, if_true, hcond,
        String.append_assoc]
    · refine ⟨"", ?_⟩
      simp only [printNode, Bool.false_eq_true, if_false, hl, hcond, if_true,
        String.append_empty, String.append_assoc]

/-- Witness for C4: the sample symlink under the sample root with default
options displays with the arrow suffix and yields a single line. -/
theorem c4_symlink_display_no_recursion_witness :
    (linkW.isSymlink = true ∧ optsW.derefLinks = false ∧
      optsW.noSymlink = false ∧
      fsW.readlink (joinPath "d" linkW.name) = some "real" ∧
      ("real" : String) ≠ "" ∧ linkW.isDir = false) ∧
    (processEntry fsW optsW (fun _ _ => none) "d" "" linkW true =
      some ([printNode linkW.name linkW optsW
        ("" ++ (if true then branch else tee)) false true "real" true], []) ∧
    ∃ s, printNode linkW.name linkW optsW
        ("" ++ (if true then branch else tee)) false true "real" true =
      (("" ++ (if true then branch else tee))
        ++ (linkW.name ++ " -> " ++ "real")) ++ s) :=
  ⟨⟨rfl, rfl, rfl, rfl, by decide, rfl⟩,
    c4_symlink_display_no_recursion fsW optsW (fun _ _ => none) "d" ""
      linkW true "real" rfl rfl rfl rfl (by decide) rfl⟩

/-- C5: with dereference-links set, a symlink whose resolution succeeds is
replaced by the target metadata and path, so the traversal recurses into
the target directory at the position of the link; if resolution fails the entry
stays an unresolved symlink, with no arrow suffix and no recursion. -/
theorem c5_deref_substitution (fs : FS) (opts : Options)
    (recur : String → String → Option (Except FsErr (List String × List Warn)))
    (path pre : String) (e : FileInfo) (isLast : Bool)
    (hsym : e.isSymlink = true) (hderef : opts.derefLinks = true) :
    (∀ tp ti ls ws, fs.evalSymlinks (joinPath path e.name) = some tp →
      fs.stat tp = some ti → ti.isDir = true →
      recur tp (pre ++ (if isLast then space else pipe)) =
        some (.ok (ls, ws)) →
      processEntry fs opts recur path pre e isLast =
        some (printNode ti.name ti opts
          (pre ++ (if isLast then branch else tee)) false true "" false :: ls,
          ws)) ∧
    ((fs.evalSymlinks (joinPath path e.name) = none ∨
      ∃ tp, fs.evalSymlinks (joinPath path e.name) = some tp ∧
        fs.stat tp = none) → e.isDir = false →
      processEntry fs opts recur path pre e isLast =
        some ([printNode e.name e opts
          (pre ++ (if isLast then branch else tee)) false true "" true],
          [])) := by
  constructor
  · intro tp ti ls ws hev hst hdir hrec
    have hres := resolveEntry_deref_ok fs opts e (joinPath path e.name) tp ti
      hsym hderef hev hst
    simp only [processEntry, hres, hdir, if_true, hrec]
  · intro hfail hdir
    have hres := resolveEntry_deref_fail fs opts e (joinPath path e.name)
      hsym hderef hfail
    simp only [processEntry, hres, hdir, Bool.false_eq_true, if_false]

/-- Witness for C5 on the sample filesystem: the symlink resolves to the
directory named real and the traversal recurses into it. -/
theorem c5_deref_substitution_witness :
    (linkW.isSymlink = true ∧ optsLW.derefLinks = true ∧
      fsW.evalSymlinks (joinPath "d" linkW.name) = some "real" ∧
      fsW.stat "real" = some targetW ∧ targetW.isDir = true) ∧
    (processEntry fsW optsLW (fun _ _ => some (.ok ([], []))) "d" "" linkW
        true =
      some (printNode targetW.name targetW optsLW
        ("" ++ (if true then branch else tee)) false true "" false :: [],
        [])) :=
  ⟨⟨rfl, rfl, rfl, rfl, rfl⟩,
    (c5_deref_substitution fsW optsLW (fun _ _ => some (.ok ([], []))) "d" ""
      linkW true rfl rfl).1 "real" targetW [] [] rfl rfl rfl rfl⟩

/-- C8: traversal errors are non-fatal.  A failing subdirectory recursion
contributes only its node line plus a logged warning, and the remaining
siblings are still processed; a failing root contributes its headers plus a
logged warning, and the remaining roots are still processed. -/
theorem c8_nonfatal_errors (fs : FS) (opts : Options) :
    (∀ (recur : String → String →
        Option (Except FsErr (List String × List Warn)))
      (path pre : String) (e : FileInfo) (rest : List FileInfo) (err : FsErr)
      (ls2 : List String) (ws2 : List Warn),
      e.isSymlink = false → e.isDir = true →
      recur (joinPath path e.name)
          (pre ++ (if rest.isEmpty then space else pipe)) =
        some (.error err) →
      processEntries fs opts recur path pre rest = some (ls2, ws2) →
      processEntries fs opts recur path pre (e :: rest) =
        some (printNode e.name e opts
            (pre ++ (if rest.isEmpty then branch else tee)) false true ""
            false :: ls2,
          Warn.readSubdir (joinPath path e.name) err :: ws2)) ∧
    (∀ (fuel total i : Nat) (root : String) (roots : List String)
      (err : FsErr) (ls : List String) (ws : List Warn),
      printTree fs opts fuel root "" true = some (.error err) →
      runRoots fs opts fuel total (i + 1) roots = some (ls, ws) →
      runRoots fs opts fuel total i (root :: roots) =
        some ((if 1 < total then
            (if 0 < i then [""] else []) ++ [root ++ ":"] else []) ++ ls,
          Warn.listingRoot root err :: ws)) := by
  constructor
  · intro recur path pre e rest err ls2 ws2 hsym hdir hrec hrest
    have hres : resolveEntry fs opts e (joinPath path e.name) =
        (e, joinPath path e.name, false, "") := by
      rw [resolveEntry, if_neg (by simp [hsym]), if_neg (by simp [hsym]),
        hsym]
    have hpe : processEntry fs opts recur path pre e rest.isEmpty =
        some ([printNode e.name e opts
          (pre ++ (if rest.isEmpty then branch else tee)) false true ""
          false],
          [Warn.readSubdir (joinPath path e.name) err]) := by
      simp only [processEntry, hres, hdir, if_true, hrec]
    simp only [processEntries, hpe, hrest]
    rfl
  · intro fuel total i root roots err ls ws hpt hrun
    simp only [runRoots, hpt, hrun]

/-- Witness for C8: a subdirectory whose recursion fails, and a root whose
lstat fails, both leave the remaining work intact. -/
theorem c8_nonfatal_errors_witness :
    (dirW.isSymlink = false ∧ dirW.isDir = true ∧
      processEntries fsW optsW
          (fun _ _ => some (.error (FsErr.readFailed "d/sub"))) "d" ""
          ([] : List FileInfo) = some ([], []) ∧
      printTree fsW optsW 1 "missing" "" true =
        some (.error (FsErr.lstatFailed "missing")) ∧
      runRoots fsW optsW 1 2 1 [] = some ([], [])) ∧
    (processEntries fsW optsW
        (fun _ _ => some (.error (FsErr.readFailed "d/sub"))) "d" ""
        [dirW] =
      some (printNode dirW.name dirW optsW
          ("" ++ (if ([] : List FileInfo).isEmpty then branch else tee))
          false true "" false :: [],
        Warn.readSubdir (joinPath "d" dirW.name)
          (FsErr.readFailed "d/sub") :: [])) ∧
    (runRoots fsW optsW 1 2 0 ["missing"] =
      some ((if 1 < 2 then (if 0 < 0 then [""] else []) ++ ["missing" ++ ":"]
          else []) ++ [],
        Warn.listingRoot "missing" (FsErr.lstatFailed "missing") :: [])) :=
  ⟨⟨rfl, rfl, rfl, rfl, rfl⟩,
    (c8_nonfatal_errors fsW optsW).1
      (fun _ _ => some (.error (FsErr.readFailed "d/sub"))) "d" "" dirW []
      (FsErr.readFailed "d/sub") [] [] rfl rfl rfl rfl,
    (c8_nonfatal_errors fsW optsW).2 1 2 0 "missing" []
      (FsErr.lstatFailed "missing") [] [] rfl rfl⟩

/-! Independence of the output from the maxDepth field. -/

theorem processEntry_maxDepth (fs : FS) (a b c d e0 : Bool) (m m0 : Int)
    (r1 r2 : String → String → Option (Except FsErr (List String × List Warn)))
    (hr : ∀ p q, r1 p q = r2 p q) (path pre : String) (ent : FileInfo)
    (isLast : Bool) :
    processEntry fs ⟨a, b, c, d, e0, m⟩ r1 path pre ent isLast =
      processEntry fs ⟨a, b, c, d, e0, m0⟩ r2 path pre ent isLast := by
  have hre : resolveEntry fs ⟨a, b, c, d, e0, m0⟩ ent
      (joinPath path ent.name) =
      resolveEntry fs ⟨a, b, c, d, e0, m⟩ ent (joinPath path ent.name) := rfl
  rcases hres : resolveEntry fs ⟨a, b, c, d, e0, m⟩ ent
    (joinPath path ent.name) with ⟨entry, entryPath, isLink, ltg⟩
  have hres2 := hre.trans hres
  simp only [processEntry, hres, hres2]
  by_cases hd : entry.isDir = true
  · simp only [hd, if_true, hr]
    rfl
  · rw [if_neg hd, if_neg hd]
    rfl

theorem processEntries_congr (fs : FS) (o1 o2 : Options)
    (r1 r2 : String → String → Option (Except FsErr (List String × List Warn)))
    (path pre : String)
    (hpe : ∀ ent isLast, processEntry fs o1 r1 path pre ent isLast =
      processEntry fs o2 r2 path pre ent isLast) :
    ∀ entries, processEntries fs o1 r1 path pre entries =
      processEntries fs o2 r2 path pre entries := by
  intro entries
  induction entries with
  | nil => rfl
  | cons ent rest ih =>
    simp only [processEntries, hpe, ih]

theorem printTree_maxDepth (fs : FS) (a b c d e0 : Bool) (m m0 : Int) :
    ∀ (fuel : Nat) (path pre : String) (isRoot : Bool),
      printTree fs ⟨a, b, c, d, e0, m⟩ fuel path pre isRoot =
        printTree fs ⟨a, b, c, d, e0, m0⟩ fuel path pre isRoot := by
  intro fuel
  induction fuel with
  | zero => intro path pre isRoot; rfl
  | succ fuel ih =>
    intro path pre isRoot
    have hpes := processEntries_congr fs ⟨a, b, c, d, e0, m⟩
      ⟨a, b, c, d, e0, m0⟩
      (fun p q => printTree fs ⟨a, b, c, d, e0, m⟩ fuel p q false)
      (fun p q => printTree fs ⟨a, b, c, d, e0, m0⟩ fuel p q false)
      path pre
      (fun ent isLast => processEntry_maxDepth fs a b c d e0 m m0 _ _
        (fun p q => ih p q false) path pre ent isLast)
    have hpn : ∀ (n : String) (info : FileInfo),
        printNode n info ⟨a, b, c, d, e0, m⟩ "" true true "" false =
          printNode n info ⟨a, b, c, d, e0, m0⟩ "" true true "" false :=
      fun _ _ => rfl
    simp only [printTree, hpes, hpn]

theorem runRoots_maxDepth (fs : FS) (a b c d e0 : Bool) (m m0 : Int)
    (fuel total : Nat) :
    ∀ (roots : List String) (i : Nat),
      runRoots fs ⟨a, b, c, d, e0, m⟩ fuel total i roots =
        runRoots fs ⟨a, b, c, d, e0, m0⟩ fuel total i roots := by
  intro roots
  induction roots with
  | nil => intro i; rfl
  | cons root rest ih =>
    intro i
    simp only [runRoots, printTree_maxDepth fs a b c d e0 m m0, ih]

/-- C7: the maxDepth field of Options has no effect on traversal or on any
printed line or logged warning: two runs on the same filesystem and
arguments that differ only in maxDepth produce identical output. -/
theorem c7_maxDepth_unused (fs : FS) (opts : Options) (m : Int)
    (fuel : Nat) (paths : List String) :
    runMain fs { opts with maxDepth := m } fuel paths =
      runMain fs opts fuel paths := by
  obtain ⟨a, b, c, d, e0, m0⟩ := opts
  exact runRoots_maxDepth fs a b c d e0 m m0 fuel
    (if paths.isEmpty then ["."] else paths).length
    (if paths.isEmpty then ["."] else paths) 0

/-! Header lines of the root loop. -/

theorem runRoots_blocks (fs : FS) (opts : Options) (fuel total : Nat)
    (htot : 1 < total) :
    ∀ (roots : List String) (i : Nat) (lines : List String)
      (warns : List Warn),
      runRoots fs opts fuel total i roots = some (lines, warns) →
      ∃ bodies : List (List String), bodies.length = roots.length ∧
        lines = (((roots.zip bodies).enumFrom i).map (fun x =>
          (if 0 < x.1 then [""] else []) ++ ([x.2.1 ++ ":"] ++ x.2.2))).flatten := by
  intro roots
  induction roots with
  | nil =>
    intro i lines warns h
    simp only [runRoots] at h
    obtain ⟨rfl, rfl⟩ : _ ∧ _ := by simpa using h.symm
    exact ⟨[], rfl, rfl⟩
  | cons root rest ih =>
    intro i lines warns h
    simp only [runRoots] at h
    match hpt : printTree fs opts fuel root "" true with
    | none => rw [hpt] at h; exact absurd h (by simp)
    | some (.error e) =>
      rw [hpt] at h
      match hrr : runRoots fs opts fuel total (i + 1) rest with
      | none => rw [hrr] at h; exact absurd h (by simp)
      | some (ls, ws) =>
        rw [hrr] at h
        obtain ⟨rfl, rfl⟩ : _ ∧ _ := by simpa using h
        obtain ⟨bodies, hblen, hbeq⟩ := ih (i + 1) ls ws hrr
        refine ⟨[] :: bodies, by simp [hblen], ?_⟩
        simp only [List.zip_cons_cons, List.enumFrom_cons, List.map_cons,
          List.flatten_cons, hbeq, if_pos htot, List.append_nil]
    | some (.ok (ls0, ws0)) =>
      rw [hpt] at h
      match hrr : runRoots fs opts fuel total (i + 1) rest with
      | none => rw [hrr] at h; exact absurd h (by simp)
      | some (ls, ws) =>
        rw [hrr] at h
        obtain ⟨rfl, rfl⟩ : _ ∧ _ := by simpa using h
        obtain ⟨bodies, hblen, hbeq⟩ := ih (i + 1) ls ws hrr
        refine ⟨ls0 :: bodies, by simp [hblen], ?_⟩
        simp only [List.zip_cons_cons, List.enumFrom_cons, List.map_cons,
          List.flatten_cons, hbeq, if_pos htot, List.append_assoc,
          List.cons_append, List.nil_append]

/-- C10: with more than one root path, the output of each root is preceded by a
header line made of the root path and a colon, with a blank line between
consecutive roots; with exactly one root, or the defaulted current
directory, no header or blank line is printed. -/
theorem c10_multi_root_headers (fs : FS) (opts : Options) (fuel : Nat) :
    (∀ (paths : List String) (lines : List String) (warns : List Warn),
      1 < paths.length →
      runMain fs opts fuel paths = some (lines, warns) →
      ∃ bodies : List (List String), bodies.length = paths.length ∧
        lines = ((paths.zip bodies).enum.map (fun x =>
          (if 0 < x.1 then [""] else []) ++ ([x.2.1 ++ ":"] ++ x.2.2))).flatten) ∧
    (∀ p, runMain fs opts fuel [p] =
      match printTree fs opts fuel p "" true with
      | none => none
      | some (.error e) => some ([], [Warn.listingRoot p e])
      | some (.ok (ls, ws)) => some (ls, ws)) ∧
    runMain fs opts fuel [] = runMain fs opts fuel ["."] := by
  refine ⟨?_, ?_, rfl⟩
  · intro paths lines warns hlen hrun
    have hne : paths.isEmpty = false := by
      cases paths with
      | nil => simp at hlen
      | cons p rest => rfl
    rw [runMain, hne] at hrun
    simp only [Bool.false_eq_true, if_false] at hrun
    exact runRoots_blocks fs opts fuel paths.length hlen paths 0 lines warns
      hrun
  · intro p
    show runRoots fs opts fuel 1 0 [p] = _
    simp only [runRoots]
    cases printTree fs opts fuel p "" true with
    | none => rfl
    | some res =>
      cases res with
      | error e => simp
      | ok r =>
        cases r with
        | mk ls ws => simp

/-- Witness for C10: two nonexistent roots still produce the two headers
separated by a blank line. -/
theorem c10_multi_root_headers_witness :
    (1 < (["p", "q"] : List String).length ∧
      runMain fsW optsW 1 ["p", "q"] = some (["p:", "", "q:"],
        [Warn.listingRoot "p" (FsErr.lstatFailed "p"),
          Warn.listingRoot "q" (FsErr.lstatFailed "q")])) ∧
    (∃ bodies : List (List String),
      bodies.length = (["p", "q"] : List String).length ∧
      ["p:", "", "q:"] = (((["p", "q"] : List String).zip bodies).enum.map
        (fun x => (if 0 < x.1 then [""] else []) ++ ([x.2.1 ++ ":"] ++ x.2.2))).flatten) :=
  ⟨⟨by decide, rfl⟩,
    (c10_multi_root_headers fsW optsW 1).1 ["p", "q"] ["p:", "", "q:"]
      [Warn.listingRoot "p" (FsErr.lstatFailed "p"),
        Warn.listingRoot "q" (FsErr.lstatFailed "q")] (by decide) rfl⟩

/-- C9: the Lean embedding of quickSort is a total function (its recursion
is well-founded, each recursive call shrinking the index range), and on the
call pattern quickSort(entries, 0, len(entries)-1, less) made by readDir,
every bounds check inside partition succeeds, so no out-of-range access
occurs: the result is never the none that models a panic. -/
theorem c9_quickSort_total_inbounds :
    ∀ (l : List FileInfo) (lt : FileInfo → FileInfo → Bool),
      (goQuickSort (Array.mk l) 0 ((l.length : Int) - 1) lt).isSome = true := by
  intro l lt
  obtain ⟨a2, hrun, _, _, _, _, _⟩ :=
    goQuickSort_spec lt l.length (Array.mk l) 0 ((l.length : Int) - 1)
      (by omega) (by omega)
      (by show ((l.length : Int) - 1) < (l.length : Int); omega)
  rw [hrun]
  rfl

end Lds
